import Mathlib

/-!
Verification of the rebalance-bot's allocation decision engine and execution
orchestration, as a shallow embedding of the TypeScript source.

The embedding covers:
* `executeRebalance` (src/rebalance_loop.ts): diffing current vs. target
  allocations into withdraw/deposit operations;
* the yield API pipeline (`fetchYieldMarkets`, `matchMarketsToStrategies`,
  `filterByTvl`, `checkDilution`, `selectWinner` in lib/yield-api.ts);
* `resolveYieldWinner` (lib/simulate/index.ts);
* the deposit-event gating of the rebalance loop's account subscription;
* the allocation optimizer (`createYieldBasedAllocation`), whose source file
  (lib/simulate/optimizer.ts) is not part of the repository snapshot and is
  therefore modelled from the specification.

JavaScript `BN` integers are modelled as `Int` (arbitrary precision, as BN);
JavaScript floating-point numbers carrying APY/USD data are modelled as `Rat`
(exact arithmetic standing in for float64).
-/

namespace RebalanceBot

/-- One entry of an allocation vector: a strategy (or the synthetic idle
entry) together with its current or target position value.
From `lib/simulate/types.ts` (`Allocation`). -/
structure Allocation where
  strategyId : String
  strategyType : String
  positionValue : Int
  deriving Repr, DecidableEq

/-- The strategy kinds for which `executeRebalance` has an adapter arm in its
`switch`; any other kind hits the `default:` arm and is skipped with a
warning. From src/rebalance_loop.ts. -/
def knownStrategyTypes : List String :=
  ["kaminoMarket", "driftEarn", "jupiterLend", "kaminoVault"]

/-- `Number.MAX_SAFE_INTEGER`, the sentinel full-balance withdrawal amount
used by `executeRebalance` when a strategy's target value is zero. -/
def maxSafeInteger : Int := 9007199254740991

/-- One element of the `depositDelta` array built at the top of
`executeRebalance`: strategy identity plus the signed delta
`target minus current`. -/
structure DeltaEntry where
  strategyId : String
  strategyType : String
  delta : Int
  deriving Repr, DecidableEq

/-- The `depositDelta` array of `executeRebalance`:
`newAllocations.map((allocation, idx) => {..., delta: allocation.positionValue
.sub(prevAllocations[idx].positionValue)})`. The two vectors are paired by
index, which `List.zipWith` captures for equal-length inputs. -/
def mkDeltas (prev new : List Allocation) : List DeltaEntry :=
  List.zipWith
    (fun n p =>
      { strategyId := n.strategyId
        strategyType := n.strategyType
        delta := n.positionValue - p.positionValue })
    new prev

/-- `Array.prototype.findIndex` specialised to matching a strategy id, as in
`depositDelta.findIndex((a) => a.strategyId === allocation.strategyId)`.
`none` models the JavaScript `-1` not-found result (never reached by
`executeRebalance`, which only looks up ids of elements of the array). -/
def findIndexById (id : String) : List DeltaEntry → Option Nat
  | [] => none
  | b :: bs =>
    if b.strategyId == id then some 0 else (findIndexById id bs).map (· + 1)

/-- The withdraw amount computed for one negative-delta entry of
`executeRebalance`: the sentinel maximum when the strategy's target position
value is zero, otherwise the negated delta. The fallback `-a.delta` arms model
the out-of-bounds accesses JavaScript would crash on; they are unreachable for
the arrays `executeRebalance` actually builds. -/
def withdrawAmountFor (newAllocs : List Allocation) (dd : List DeltaEntry)
    (a : DeltaEntry) : Int :=
  match findIndexById a.strategyId dd with
  | some i =>
    match newAllocs[i]? with
    | some alloc =>
      if alloc.positionValue == 0 then maxSafeInteger else -a.delta
    | none => -a.delta
  | none => -a.delta

/-- The kind of a rebalance operation. -/
inductive OpKind where
  | withdraw
  | deposit
  deriving Repr, DecidableEq

/-- One rebalance operation as handed to a strategy adapter: which strategy,
which direction, and the BN amount passed to the adapter. -/
structure RebalanceOp where
  strategyId : String
  kind : OpKind
  amount : Int
  deriving Repr, DecidableEq

/-- The negative-delta entries of `depositDelta`, in array order: the entries
`executeRebalance`'s first loop (`depositDelta.filter((allocation) =>
allocation.delta.ltn(0))`) iterates over. -/
def negDeltas (prev newAllocs : List Allocation) : List DeltaEntry :=
  (mkDeltas prev newAllocs).filter (fun a => a.delta < 0)

/-- The final value of the `nWithdraws` counter of `executeRebalance`: it is
incremented once per negative-delta entry, before the strategy-kind `switch`,
so entries with an unknown strategy kind are counted even though their
instruction is skipped. -/
def nWithdrawsOf (prev newAllocs : List Allocation) : Nat :=
  (negDeltas prev newAllocs).length

/-- The withdraw operations `executeRebalance`'s first loop hands to the
strategy adapters, in order: one per negative-delta entry whose strategy kind
has an adapter arm (the `default:` arm only logs and skips). -/
def rebalanceWithdrawOps (prev newAllocs : List Allocation) : List RebalanceOp :=
  (negDeltas prev newAllocs).filterMap (fun a =>
    if knownStrategyTypes.contains a.strategyType then
      some { strategyId := a.strategyId
             kind := OpKind.withdraw
             amount := withdrawAmountFor newAllocs (mkDeltas prev newAllocs) a }
    else none)

/-- The deposit operations of `executeRebalance`'s second loop, in order: one
per positive-delta entry with an adapter arm, with amount
`allocation.delta.subn(nWithdraws)`. -/
def rebalanceDepositOps (prev newAllocs : List Allocation) : List RebalanceOp :=
  ((mkDeltas prev newAllocs).filter (fun a => 0 < a.delta)).filterMap (fun a =>
    if knownStrategyTypes.contains a.strategyType then
      some { strategyId := a.strategyId
             kind := OpKind.deposit
             amount := a.delta - (nWithdrawsOf prev newAllocs : Int) }
    else none)

/-- The full ordered list of operations `executeRebalance` hands to the
strategy adapters in one cycle: the first loop's withdraw operations followed
by the second loop's deposit operations. -/
def executeRebalanceOps (prev newAllocs : List Allocation) : List RebalanceOp :=
  rebalanceWithdrawOps prev newAllocs ++ rebalanceDepositOps prev newAllocs

theorem mem_withdrawOps_kind (prev newAllocs : List Allocation)
    (o : RebalanceOp) (h : o ∈ rebalanceWithdrawOps prev newAllocs) :
    o.kind = OpKind.withdraw := by
  simp only [rebalanceWithdrawOps, List.mem_filterMap] at h
  obtain ⟨a, -, ha⟩ := h
  split at ha
  · cases ha
    rfl
  · cases ha

theorem mem_depositOps_kind (prev newAllocs : List Allocation)
    (o : RebalanceOp) (h : o ∈ rebalanceDepositOps prev newAllocs) :
    o.kind = OpKind.deposit := by
  simp only [rebalanceDepositOps, List.mem_filterMap] at h
  obtain ⟨a, -, ha⟩ := h
  split at ha
  · cases ha
    rfl
  · cases ha

/-- **C1.** Within one rebalance cycle, every withdraw operation is appended
before any deposit operation: any operation at a position strictly after a
deposit operation is itself a deposit operation, so no deposit ever precedes a
withdraw in the instruction list built by `executeRebalance`. -/
theorem executeRebalance_withdraws_before_deposits
    (prev newAllocs : List Allocation) (i j : Nat) (oi oj : RebalanceOp)
    (hij : i < j)
    (hi : (executeRebalanceOps prev newAllocs)[i]? = some oi)
    (hj : (executeRebalanceOps prev newAllocs)[j]? = some oj)
    (hdep : oi.kind = OpKind.deposit) :
    oj.kind = OpKind.deposit := by
  have hiw : ¬ i < (rebalanceWithdrawOps prev newAllocs).length := by
    intro hlt
    rw [executeRebalanceOps, List.getElem?_append_left hlt] at hi
    have : oi ∈ rebalanceWithdrawOps prev newAllocs := List.getElem?_mem hi
    have := mem_withdrawOps_kind prev newAllocs oi this
    rw [this] at hdep
    cases hdep
  have hjw : (rebalanceWithdrawOps prev newAllocs).length ≤ j :=
    le_trans (Nat.le_of_not_lt hiw) (Nat.le_of_lt hij)
  rw [executeRebalanceOps, List.getElem?_append_right hjw] at hj
  exact mem_depositOps_kind prev newAllocs oj (List.getElem?_mem hj)

/-- Witness for C1: a cycle with one withdraw and two deposits, applied at the
two deposit positions. -/
theorem executeRebalance_withdraws_before_deposits_witness :
    (RebalanceOp.mk "c" OpKind.deposit 1).kind = OpKind.deposit :=
  executeRebalance_withdraws_before_deposits
    [⟨"a", "kaminoMarket", 4⟩, ⟨"b", "kaminoMarket", 0⟩, ⟨"c", "kaminoMarket", 0⟩]
    [⟨"a", "kaminoMarket", 0⟩, ⟨"b", "kaminoMarket", 2⟩, ⟨"c", "kaminoMarket", 2⟩]
    1 2 (RebalanceOp.mk "b" OpKind.deposit 1) (RebalanceOp.mk "c" OpKind.deposit 1)
    (by decide) (by decide) (by decide) (by decide)

theorem mem_withdrawOps_exists (prev newAllocs : List Allocation)
    (o : RebalanceOp) (h : o ∈ rebalanceWithdrawOps prev newAllocs) :
    ∃ a ∈ mkDeltas prev newAllocs, a.delta < 0 ∧
      knownStrategyTypes.contains a.strategyType ∧
      o = { strategyId := a.strategyId
            kind := OpKind.withdraw
            amount := withdrawAmountFor newAllocs (mkDeltas prev newAllocs) a } := by
  simp only [rebalanceWithdrawOps, negDeltas, List.mem_filterMap,
    List.mem_filter] at h
  obtain ⟨a, ⟨hmem, hneg⟩, ha⟩ := h
  refine ⟨a, hmem, by simpa using hneg, ?_, ?_⟩ <;> split at ha
  · assumption
  · cases ha
  · cases ha
    rfl
  · cases ha

theorem mem_depositOps_exists (prev newAllocs : List Allocation)
    (o : RebalanceOp) (h : o ∈ rebalanceDepositOps prev newAllocs) :
    ∃ a ∈ mkDeltas prev newAllocs, 0 < a.delta ∧
      knownStrategyTypes.contains a.strategyType ∧
      o = { strategyId := a.strategyId
            kind := OpKind.deposit
            amount := a.delta - (nWithdrawsOf prev newAllocs : Int) } := by
  simp only [rebalanceDepositOps, List.mem_filterMap, List.mem_filter] at h
  obtain ⟨a, ⟨hmem, hpos⟩, ha⟩ := h
  refine ⟨a, hmem, by simpa using hpos, ?_, ?_⟩ <;> split at ha
  · assumption
  · cases ha
  · cases ha
    rfl
  · cases ha

/-- **C3, counterexample.** A cycle with two withdrawals (deltas `-1, -1`)
and one deposit of delta `2` emits a deposit operation whose amount
`2 - nWithdraws = 0` is not strictly positive, refuting the claim that every
deposit amount stays strictly positive after the withdrawal-count haircut. -/
theorem executeRebalance_zero_amount_deposit_cx :
    RebalanceOp.mk "c" OpKind.deposit 0 ∈ executeRebalanceOps
      [⟨"a", "kaminoMarket", 1⟩, ⟨"b", "kaminoMarket", 1⟩, ⟨"c", "kaminoMarket", 0⟩]
      [⟨"a", "kaminoMarket", 0⟩, ⟨"b", "kaminoMarket", 0⟩, ⟨"c", "kaminoMarket", 2⟩]
      ∧ ¬ (0 < (RebalanceOp.mk "c" OpKind.deposit 0).amount) := by
  decide

/-- **C3, amended.** Every operation derived from a cycle's deltas matches the
sign of its strategy's delta: a withdraw entry is emitted only for a strategy
with negative delta and its amount is strictly positive; a deposit entry is
emitted only for a strategy with positive delta and its amount equals the
delta minus the withdrawal count (so it is strictly positive only when the
delta exceeds that count, and can be zero or negative otherwise); a strategy
with zero delta emits no operation. -/
theorem executeRebalance_op_sign_discipline
    (prev newAllocs : List Allocation)
    (hnodup : ((mkDeltas prev newAllocs).map (·.strategyId)).Nodup) :
    (∀ op ∈ executeRebalanceOps prev newAllocs,
      (op.kind = OpKind.withdraw →
        0 < op.amount ∧ ∃ a ∈ mkDeltas prev newAllocs,
          a.strategyId = op.strategyId ∧ a.delta < 0) ∧
      (op.kind = OpKind.deposit →
        ∃ a ∈ mkDeltas prev newAllocs, a.strategyId = op.strategyId ∧
          0 < a.delta ∧
          op.amount = a.delta - (nWithdrawsOf prev newAllocs : Int))) ∧
    (∀ a ∈ mkDeltas prev newAllocs, a.delta = 0 →
      ∀ op ∈ executeRebalanceOps prev newAllocs,
        op.strategyId ≠ a.strategyId) := by
  constructor
  · intro op hop
    rcases List.mem_append.mp hop with hw | hd
    · obtain ⟨a, hmem, hneg, -, rfl⟩ := mem_withdrawOps_exists prev newAllocs op hw
      have hamount : 0 < withdrawAmountFor newAllocs (mkDeltas prev newAllocs) a := by
        unfold withdrawAmountFor
        split
        · split
          · split
            · decide
            · omega
          · omega
        · omega
      refine ⟨fun _ => ⟨hamount, a, hmem, rfl, hneg⟩, fun hk => ?_⟩
      cases hk
    · obtain ⟨a, hmem, hpos, -, rfl⟩ := mem_depositOps_exists prev newAllocs op hd
      refine ⟨fun hk => ?_, fun _ => ?_⟩
      · cases hk
      · exact ⟨a, hmem, rfl, hpos, rfl⟩
  · intro a hmem hzero op hop heq
    have hid := List.inj_on_of_nodup_map hnodup
    rcases List.mem_append.mp hop with hw | hd
    · obtain ⟨b, hb, hbneg, -, rfl⟩ := mem_withdrawOps_exists prev newAllocs op hw
      obtain rfl : b = a := hid hb hmem heq
      omega
    · obtain ⟨b, hb, hbpos, -, rfl⟩ := mem_depositOps_exists prev newAllocs op hd
      obtain rfl : b = a := hid hb hmem heq
      omega

/-- Witness for the amended C3, at a concrete cycle with one withdraw and one
deposit. -/
theorem executeRebalance_op_sign_discipline_witness :
    (∀ op ∈ executeRebalanceOps
        [⟨"a", "kaminoMarket", 3⟩, ⟨"b", "kaminoMarket", 0⟩]
        [⟨"a", "kaminoMarket", 0⟩, ⟨"b", "kaminoMarket", 3⟩],
      (op.kind = OpKind.withdraw →
        0 < op.amount ∧ ∃ a ∈ mkDeltas
          [⟨"a", "kaminoMarket", 3⟩, ⟨"b", "kaminoMarket", 0⟩]
          [⟨"a", "kaminoMarket", 0⟩, ⟨"b", "kaminoMarket", 3⟩],
          a.strategyId = op.strategyId ∧ a.delta < 0) ∧
      (op.kind = OpKind.deposit →
        ∃ a ∈ mkDeltas
          [⟨"a", "kaminoMarket", 3⟩, ⟨"b", "kaminoMarket", 0⟩]
          [⟨"a", "kaminoMarket", 0⟩, ⟨"b", "kaminoMarket", 3⟩],
          a.strategyId = op.strategyId ∧ 0 < a.delta ∧
          op.amount = a.delta - (nWithdrawsOf
            [⟨"a", "kaminoMarket", 3⟩, ⟨"b", "kaminoMarket", 0⟩]
            [⟨"a", "kaminoMarket", 0⟩, ⟨"b", "kaminoMarket", 3⟩] : Int))) ∧
    (∀ a ∈ mkDeltas
        [⟨"a", "kaminoMarket", 3⟩, ⟨"b", "kaminoMarket", 0⟩]
        [⟨"a", "kaminoMarket", 0⟩, ⟨"b", "kaminoMarket", 3⟩],
      a.delta = 0 →
      ∀ op ∈ executeRebalanceOps
          [⟨"a", "kaminoMarket", 3⟩, ⟨"b", "kaminoMarket", 0⟩]
          [⟨"a", "kaminoMarket", 0⟩, ⟨"b", "kaminoMarket", 3⟩],
        op.strategyId ≠ a.strategyId) :=
  executeRebalance_op_sign_discipline
    [⟨"a", "kaminoMarket", 3⟩, ⟨"b", "kaminoMarket", 0⟩]
    [⟨"a", "kaminoMarket", 0⟩, ⟨"b", "kaminoMarket", 3⟩]
    (by decide)

theorem mkDeltas_getElem?_eq_some (prev newAllocs : List Allocation) (j : Nat)
    (b : DeltaEntry) (h : (mkDeltas prev newAllocs)[j]? = some b) :
    ∃ n p, newAllocs[j]? = some n ∧ prev[j]? = some p ∧
      b = { strategyId := n.strategyId
            strategyType := n.strategyType
            delta := n.positionValue - p.positionValue } := by
  rw [mkDeltas, List.getElem?_zipWith_eq_some] at h
  obtain ⟨n, p, hn, hp, hb⟩ := h
  exact ⟨n, p, hn, hp, hb.symm⟩

theorem findIndexById_eq_some (l : List DeltaEntry) (i : Nat) (a : DeltaEntry)
    (ha : l[i]? = some a)
    (hbefore : ∀ j b, j < i → l[j]? = some b → b.strategyId ≠ a.strategyId) :
    findIndexById a.strategyId l = some i := by
  induction l generalizing i with
  | nil => simp at ha
  | cons x xs ih =>
    cases i with
    | zero =>
      rw [List.getElem?_cons_zero] at ha
      obtain rfl : x = a := by simpa using ha
      unfold findIndexById
      simp
    | succ k =>
      rw [List.getElem?_cons_succ] at ha
      have hx : x.strategyId ≠ a.strategyId :=
        hbefore 0 x (Nat.succ_pos k) List.getElem?_cons_zero
      have hrec := ih k ha (fun j b hj hb =>
        hbefore (j + 1) b (Nat.succ_lt_succ hj)
          (by rw [List.getElem?_cons_succ]; exact hb))
      unfold findIndexById
      simp [hx, hrec]

/-- **C4.** For every strategy whose delta is negative in a cycle (and whose
kind has an adapter), `executeRebalance` emits a withdraw operation whose
amount is the sentinel `Number.MAX_SAFE_INTEGER` when the strategy's target
value is zero, and the negated delta (current minus target) otherwise. -/
theorem executeRebalance_full_exit_uses_sentinel
    (prev newAllocs : List Allocation)
    (hnodup : (newAllocs.map (·.strategyId)).Nodup)
    (i : Nat) (pa na : Allocation)
    (hp : prev[i]? = some pa) (hn : newAllocs[i]? = some na)
    (hneg : na.positionValue - pa.positionValue < 0)
    (hknown : knownStrategyTypes.contains na.strategyType) :
    RebalanceOp.mk na.strategyId OpKind.withdraw
        (if na.positionValue = 0 then maxSafeInteger
         else pa.positionValue - na.positionValue)
      ∈ executeRebalanceOps prev newAllocs := by
  set a : DeltaEntry :=
    { strategyId := na.strategyId
      strategyType := na.strategyType
      delta := na.positionValue - pa.positionValue } with ha_def
  have hdd : (mkDeltas prev newAllocs)[i]? = some a := by
    rw [mkDeltas, List.getElem?_zipWith_eq_some]
    exact ⟨na, pa, hn, hp, rfl⟩
  have hbefore : ∀ j b, j < i → (mkDeltas prev newAllocs)[j]? = some b →
      b.strategyId ≠ a.strategyId := by
    intro j b hj hb hcontra
    obtain ⟨n, p, hn', hp', rfl⟩ := mkDeltas_getElem?_eq_some prev newAllocs j b hb
    have hmapj : (newAllocs.map (·.strategyId))[j]? = some n.strategyId := by
      rw [List.getElem?_map]
      simp [hn']
    have hmapi : (newAllocs.map (·.strategyId))[i]? = some na.strategyId := by
      rw [List.getElem?_map]
      simp [hn]
    have hjlen : j < (newAllocs.map (·.strategyId)).length := by
      have := List.getElem?_eq_some.mp hmapj
      exact this.choose
    have : j = i := by
      apply List.getElem?_inj hjlen hnodup
      rw [hmapj, hmapi]
      simpa using hcontra
    omega
  have hfind : findIndexById a.strategyId (mkDeltas prev newAllocs) = some i :=
    findIndexById_eq_some _ i a hdd hbefore
  have hamount : withdrawAmountFor newAllocs (mkDeltas prev newAllocs) a =
      if na.positionValue = 0 then maxSafeInteger
      else pa.positionValue - na.positionValue := by
    unfold withdrawAmountFor
    rw [hfind]
    simp only [hn, ha_def]
    by_cases h0 : na.positionValue = 0
    · simp [h0]
    · rw [if_neg (by simpa using h0), if_neg h0]
      ring
  apply List.mem_append_left
  simp only [rebalanceWithdrawOps, negDeltas, List.mem_filterMap,
    List.mem_filter]
  refine ⟨a, ⟨List.getElem?_mem hdd, by simpa using hneg⟩, ?_⟩
  rw [if_pos hknown, hamount]

/-- Witness for C4: a strategy fully exited (target zero) yields the sentinel
amount. -/
theorem executeRebalance_full_exit_uses_sentinel_witness :
    RebalanceOp.mk "a" OpKind.withdraw
        (if (0 : Int) = 0 then maxSafeInteger else (7 : Int) - 0)
      ∈ executeRebalanceOps
        [⟨"a", "jupiterLend", 7⟩, ⟨"b", "jupiterLend", 0⟩]
        [⟨"a", "jupiterLend", 0⟩, ⟨"b", "jupiterLend", 7⟩] :=
  executeRebalance_full_exit_uses_sentinel
    [⟨"a", "jupiterLend", 7⟩, ⟨"b", "jupiterLend", 0⟩]
    [⟨"a", "jupiterLend", 0⟩, ⟨"b", "jupiterLend", 7⟩]
    (by decide) 0 ⟨"a", "jupiterLend", 7⟩ ⟨"a", "jupiterLend", 0⟩
    (by decide) (by decide) (by decide) (by decide)

theorem withdrawOps_eq_map_of_all_known (prev newAllocs : List Allocation)
    (hall : ∀ a ∈ mkDeltas prev newAllocs,
      knownStrategyTypes.contains a.strategyType) :
    rebalanceWithdrawOps prev newAllocs =
      (negDeltas prev newAllocs).map (fun a =>
        { strategyId := a.strategyId
          kind := OpKind.withdraw
          amount := withdrawAmountFor newAllocs (mkDeltas prev newAllocs) a }) := by
  rw [rebalanceWithdrawOps]
  rw [List.filterMap_congr (g := fun a => some
    { strategyId := a.strategyId
      kind := OpKind.withdraw
      amount := withdrawAmountFor newAllocs (mkDeltas prev newAllocs) a })]
  · exact List.filterMap_eq_map_iff_forall_eq_some.mpr fun x _ => rfl
  · intro a hmem
    rw [if_pos (hall a (List.mem_of_mem_filter hmem))]

theorem ops_filter_withdraw_length (prev newAllocs : List Allocation)
    (hall : ∀ a ∈ mkDeltas prev newAllocs,
      knownStrategyTypes.contains a.strategyType) :
    ((executeRebalanceOps prev newAllocs).filter
        (fun o => o.kind == OpKind.withdraw)).length =
      nWithdrawsOf prev newAllocs := by
  rw [executeRebalanceOps, List.filter_append]
  rw [List.filter_eq_self.mpr (fun o ho => by
    simp [mem_withdrawOps_kind prev newAllocs o ho])]
  rw [List.filter_eq_nil_iff.mpr (fun o ho => by
    simp [mem_depositOps_kind prev newAllocs o ho])]
  rw [List.append_nil, withdrawOps_eq_map_of_all_known prev newAllocs hall,
    List.length_map, nWithdrawsOf]

/-- **C5.** When every strategy kind in the cycle has an adapter, each deposit
operation's amount equals that strategy's positive delta minus the number of
withdraw operations issued in the same cycle; the haircut is the same
withdrawal count for every deposit. -/
theorem executeRebalance_deposit_haircut (prev newAllocs : List Allocation)
    (hall : ∀ a ∈ mkDeltas prev newAllocs,
      knownStrategyTypes.contains a.strategyType) :
    ∀ op ∈ executeRebalanceOps prev newAllocs, op.kind = OpKind.deposit →
      ∃ a ∈ mkDeltas prev newAllocs, a.strategyId = op.strategyId ∧
        0 < a.delta ∧
        op.amount = a.delta -
          (((executeRebalanceOps prev newAllocs).filter
              (fun o => o.kind == OpKind.withdraw)).length : Int) := by
  intro op hop hkind
  rcases List.mem_append.mp hop with hw | hd
  · rw [mem_withdrawOps_kind prev newAllocs op hw] at hkind
    cases hkind
  · obtain ⟨a, hmem, hpos, -, rfl⟩ := mem_depositOps_exists prev newAllocs op hd
    refine ⟨a, hmem, rfl, hpos, ?_⟩
    rw [ops_filter_withdraw_length prev newAllocs hall]

/-- Witness for C5: a cycle with one withdraw and one deposit; the deposit's
amount 1 equals its delta 2 minus the single issued withdrawal. -/
theorem executeRebalance_deposit_haircut_witness :
    ∃ a ∈ mkDeltas
      [⟨"a", "kaminoVault", 2⟩, ⟨"b", "kaminoVault", 0⟩]
      [⟨"a", "kaminoVault", 0⟩, ⟨"b", "kaminoVault", 2⟩],
      a.strategyId = "b" ∧ 0 < a.delta ∧
      (1 : Int) = a.delta -
        (((executeRebalanceOps
            [⟨"a", "kaminoVault", 2⟩, ⟨"b", "kaminoVault", 0⟩]
            [⟨"a", "kaminoVault", 0⟩, ⟨"b", "kaminoVault", 2⟩]).filter
            (fun o => o.kind == OpKind.withdraw)).length : Int) :=
  executeRebalance_deposit_haircut
    [⟨"a", "kaminoVault", 2⟩, ⟨"b", "kaminoVault", 0⟩]
    [⟨"a", "kaminoVault", 0⟩, ⟨"b", "kaminoVault", 2⟩]
    (by decide) (RebalanceOp.mk "b" OpKind.deposit 1) (by decide) rfl

/-! ### Yield API pipeline (lib/yield-api.ts)

`depositApy` and `totalDepositUsd` are JavaScript numbers; they are modelled
as exact rationals. -/

/-- A registered strategy as loaded by lib/strategy-config.ts: id, type tag
and resolved on-chain address (addresses modelled as strings). -/
structure StrategyConfig where
  id : String
  type : String
  address : String
  deriving Repr, DecidableEq

/-- One market record returned by the Dial yield API (`DialMarket`):
`provider.id`, `token.address` and `additionalData.vaultAddress` are the
fields the pipeline reads; `vaultAddress` is optional. -/
structure DialMarket where
  id : String
  providerId : String
  tokenAddress : String
  depositApy : Rat
  totalDepositUsd : Rat
  vaultAddress : Option String
  deriving Repr, DecidableEq

/-- A market paired with the registered strategy it matched
(`MatchedMarket`). -/
structure MatchedMarket where
  market : DialMarket
  strategy : StrategyConfig
  deriving Repr, DecidableEq

/-- `fetchYieldMarkets` after a successful HTTP fetch: the response's markets
are filtered down to those whose `token.address` equals the configured asset
mint (`data.markets.filter((m) => m.token.address === assetMint)`). -/
def fetchYieldMarkets (assetMint : String) (responseMarkets : List DialMarket) :
    List DialMarket :=
  responseMarkets.filter (fun m => m.tokenAddress == assetMint)

/-- The second `if` block of `matchMarketsToStrategies`'s loop body: a market
from provider `jupiter` matches the registered jupiterLend strategy, if one
exists. -/
def jupiterMatch (registry : List StrategyConfig) (m : DialMarket) :
    Option MatchedMarket :=
  if m.providerId == "jupiter" then
    (registry.find? (fun s => s.type == "jupiterLend")).map
      (fun s => ⟨m, s⟩)
  else none

/-- The per-market body of `matchMarketsToStrategies`'s loop: a market with a
`vaultAddress` hint matches the kaminoVault strategy at that address (and the
loop `continue`s); otherwise a market from provider `jupiter` matches the
registered jupiterLend strategy; anything else is dropped. -/
def matchMarket (registry : List StrategyConfig) (m : DialMarket) :
    Option MatchedMarket :=
  match m.vaultAddress with
  | some va =>
    match registry.find?
        (fun s => s.type == "kaminoVault" && s.address == va) with
    | some s => some ⟨m, s⟩
    | none => jupiterMatch registry m
  | none => jupiterMatch registry m

/-- `matchMarketsToStrategies`: each fetched market contributes at most one
matched candidate. -/
def matchMarketsToStrategies (registry : List StrategyConfig)
    (markets : List DialMarket) : List MatchedMarket :=
  markets.filterMap (matchMarket registry)

/-- `filterByTvl`: keep candidates with `totalDepositUsd >= minUsd`. -/
def filterByTvl (minUsd : Rat) (markets : List MatchedMarket) :
    List MatchedMarket :=
  markets.filter (fun m => minUsd ≤ m.market.totalDepositUsd)

/-- `checkDilution`: the candidate survives when the APY drop caused by the
pool's own deposit, `depositApy - depositApy*tvl/(tvl+ourDepositUsd)`, is at
most `maxPct`. -/
def checkDilution (maxPct : Rat) (market : DialMarket)
    (ourDepositUsd : Rat) : Bool :=
  let effectiveApy :=
    market.depositApy * market.totalDepositUsd /
      (market.totalDepositUsd + ourDepositUsd)
  let dilution := market.depositApy - effectiveApy
  dilution ≤ maxPct

/-- The candidates surviving both of `selectWinner`'s filters, in input
order: the TVL floor first, then the dilution ceiling. -/
def selectWinnerSurvivors (minTvl maxDil ourDepositUsd : Rat)
    (markets : List MatchedMarket) : List MatchedMarket :=
  (filterByTvl minTvl markets).filter
    (fun m => checkDilution maxDil m.market ourDepositUsd)

/-- Insertion step of a stable descending sort on `depositApy`: the new
element goes before the first element whose APY is not larger than its own,
so elements with equal APY keep their relative order. -/
def insertByApyDesc (x : MatchedMarket) : List MatchedMarket → List MatchedMarket
  | [] => [x]
  | y :: ys =>
    if y.market.depositApy ≤ x.market.depositApy then x :: y :: ys
    else y :: insertByApyDesc x ys

/-- Stable descending sort on `depositApy`, modelling
`dilutionFiltered.sort((a, b) => b.market.depositApy - a.market.depositApy)`:
ECMAScript's `Array.prototype.sort` is stable, and any stable sort with this
comparator produces the same list. -/
def sortByApyDesc : List MatchedMarket → List MatchedMarket
  | [] => []
  | x :: xs => insertByApyDesc x (sortByApyDesc xs)

/-- `selectWinner`: apply both filters, sort descending by APY, take the
first element; `none` models the explicit `null` on an empty survivor
list (`head?` of the sorted list is `none` exactly then). -/
def selectWinner (minTvl maxDil : Rat) (markets : List MatchedMarket)
    (ourDepositUsd : Rat) : Option MatchedMarket :=
  (sortByApyDesc (selectWinnerSurvivors minTvl maxDil ourDepositUsd markets)).head?

/-- The earliest element of maximal `depositApy` in a list, the
specification-side description of what a stable descending sort places
first. -/
def firstMaxByApy : List MatchedMarket → Option MatchedMarket
  | [] => none
  | x :: xs =>
    match firstMaxByApy xs with
    | none => some x
    | some m =>
      if m.market.depositApy ≤ x.market.depositApy then some x else some m

theorem length_insertByApyDesc (x : MatchedMarket) (l : List MatchedMarket) :
    (insertByApyDesc x l).length = l.length + 1 := by
  induction l with
  | nil => rfl
  | cons y ys ih =>
    unfold insertByApyDesc
    split
    · rfl
    · simp [ih]

theorem length_sortByApyDesc (l : List MatchedMarket) :
    (sortByApyDesc l).length = l.length := by
  induction l with
  | nil => rfl
  | cons x xs ih =>
    unfold sortByApyDesc
    rw [length_insertByApyDesc, ih, List.length_cons]

theorem firstMaxByApy_cons_none (x : MatchedMarket) (xs : List MatchedMarket)
    (h : firstMaxByApy xs = none) : firstMaxByApy (x :: xs) = some x := by
  unfold firstMaxByApy
  rw [h]

theorem firstMaxByApy_cons_some (x m : MatchedMarket) (xs : List MatchedMarket)
    (h : firstMaxByApy xs = some m) :
    firstMaxByApy (x :: xs) =
      if m.market.depositApy ≤ x.market.depositApy then some x else some m := by
  unfold firstMaxByApy
  rw [h]

theorem firstMaxByApy_eq_none_iff (l : List MatchedMarket) :
    firstMaxByApy l = none ↔ l = [] := by
  cases l with
  | nil => simp [firstMaxByApy]
  | cons x xs =>
    simp only [List.cons_ne_nil, iff_false]
    intro h
    rcases hm : firstMaxByApy xs with _ | m
    · rw [firstMaxByApy_cons_none x xs hm] at h
      cases h
    · rw [firstMaxByApy_cons_some x m xs hm] at h
      by_cases hle : m.market.depositApy ≤ x.market.depositApy
      · rw [if_pos hle] at h
        cases h
      · rw [if_neg hle] at h
        cases h

theorem firstMaxByApy_mem (l : List MatchedMarket) (w : MatchedMarket)
    (h : firstMaxByApy l = some w) : w ∈ l := by
  induction l generalizing w with
  | nil => cases h
  | cons x xs ih =>
    rcases hm : firstMaxByApy xs with _ | m
    · rw [firstMaxByApy_cons_none x xs hm] at h
      obtain rfl : x = w := by simpa using h
      exact List.mem_cons_self x xs
    · rw [firstMaxByApy_cons_some x m xs hm] at h
      by_cases hle : m.market.depositApy ≤ x.market.depositApy
      · rw [if_pos hle] at h
        obtain rfl : x = w := by simpa using h
        exact List.mem_cons_self x xs
      · rw [if_neg hle] at h
        have hw : m = w := by simpa using h
        subst hw
        exact List.mem_cons_of_mem x (ih m hm)

theorem firstMaxByApy_maximal (l : List MatchedMarket) (w : MatchedMarket)
    (h : firstMaxByApy l = some w) :
    ∀ c ∈ l, c.market.depositApy ≤ w.market.depositApy := by
  induction l generalizing w with
  | nil => cases h
  | cons x xs ih =>
    intro c hc
    rcases hm : firstMaxByApy xs with _ | m
    · rw [firstMaxByApy_cons_none x xs hm] at h
      obtain rfl : x = w := by simpa using h
      rcases List.mem_cons.mp hc with rfl | hcs
      · exact le_refl _
      · rw [(firstMaxByApy_eq_none_iff xs).mp hm] at hcs
        cases hcs
    · rw [firstMaxByApy_cons_some x m xs hm] at h
      by_cases hle : m.market.depositApy ≤ x.market.depositApy
      · rw [if_pos hle] at h
        obtain rfl : x = w := by simpa using h
        rcases List.mem_cons.mp hc with rfl | hcs
        · exact le_refl _
        · exact le_trans (ih m hm c hcs) hle
      · rw [if_neg hle] at h
        have hw : m = w := by simpa using h
        subst hw
        rcases List.mem_cons.mp hc with rfl | hcs
        · exact le_of_not_le hle
        · exact ih m hm c hcs

theorem head?_sortByApyDesc (l : List MatchedMarket) :
    (sortByApyDesc l).head? = firstMaxByApy l := by
  induction l with
  | nil => rfl
  | cons x xs ih =>
    show (insertByApyDesc x (sortByApyDesc xs)).head? = firstMaxByApy (x :: xs)
    cases hs : sortByApyDesc xs with
    | nil =>
      have hxs : xs = [] := by
        have hlen := length_sortByApyDesc xs
        rw [hs] at hlen
        exact List.eq_nil_of_length_eq_zero hlen.symm
      subst hxs
      rfl
    | cons y ys =>
      have hfm : firstMaxByApy xs = some y := by
        rw [← ih, hs]
        rfl
      rw [firstMaxByApy_cons_some x y xs hfm]
      unfold insertByApyDesc
      by_cases hle : y.market.depositApy ≤ x.market.depositApy
      · rw [if_pos hle, if_pos hle]
        rfl
      · rw [if_neg hle, if_neg hle]
        rfl

theorem firstMaxByApy_earliest (l : List MatchedMarket) (w : MatchedMarket)
    (h : firstMaxByApy l = some w) :
    ∃ k : Nat, l[k]? = some w ∧ ∀ (j : Nat) (c : MatchedMarket), j < k →
      l[j]? = some c → c.market.depositApy < w.market.depositApy := by
  induction l generalizing w with
  | nil => cases h
  | cons x xs ih =>
    rcases hm : firstMaxByApy xs with _ | m
    · rw [firstMaxByApy_cons_none x xs hm] at h
      obtain rfl : x = w := by simpa using h
      exact ⟨0, List.getElem?_cons_zero,
        fun j c hj _ => absurd hj (Nat.not_lt_zero j)⟩
    · rw [firstMaxByApy_cons_some x m xs hm] at h
      by_cases hle : m.market.depositApy ≤ x.market.depositApy
      · rw [if_pos hle] at h
        obtain rfl : x = w := by simpa using h
        exact ⟨0, List.getElem?_cons_zero,
          fun j c hj _ => absurd hj (Nat.not_lt_zero j)⟩
      · rw [if_neg hle] at h
        have hw : m = w := by simpa using h
        subst hw
        obtain ⟨k, hk, hbefore⟩ := ih m hm
        refine ⟨k + 1, by rw [List.getElem?_cons_succ]; exact hk, ?_⟩
        intro j c hj hc
        cases j with
        | zero =>
          rw [List.getElem?_cons_zero] at hc
          obtain rfl : x = c := by simpa using hc
          exact lt_of_not_le hle
        | succ j' =>
          rw [List.getElem?_cons_succ] at hc
          exact hbefore j' c (by omega) hc

/-- **C6.** `selectWinner` returns `null` exactly when no candidate survives
both filters (TVL at least the floor, dilution
`apy - apy*tvl/(tvl+ourDeposit)` at most the ceiling), and otherwise returns
a surviving candidate of maximal `depositApy` among the survivors. -/
theorem selectWinner_filters_and_max (minTvl maxDil ourDepositUsd : Rat)
    (markets : List MatchedMarket) :
    (∀ m : MatchedMarket,
      m ∈ selectWinnerSurvivors minTvl maxDil ourDepositUsd markets ↔
        m ∈ markets ∧ minTvl ≤ m.market.totalDepositUsd ∧
          m.market.depositApy -
              m.market.depositApy * m.market.totalDepositUsd /
                (m.market.totalDepositUsd + ourDepositUsd) ≤ maxDil) ∧
    (selectWinner minTvl maxDil markets ourDepositUsd = none ↔
      selectWinnerSurvivors minTvl maxDil ourDepositUsd markets = []) ∧
    (∀ w : MatchedMarket,
      selectWinner minTvl maxDil markets ourDepositUsd = some w →
        w ∈ selectWinnerSurvivors minTvl maxDil ourDepositUsd markets ∧
        ∀ c ∈ selectWinnerSurvivors minTvl maxDil ourDepositUsd markets,
          c.market.depositApy ≤ w.market.depositApy) := by
  refine ⟨?_, ?_, ?_⟩
  · intro m
    simp [selectWinnerSurvivors, filterByTvl, checkDilution, List.mem_filter,
      and_assoc]
    tauto
  · rw [selectWinner, List.head?_eq_none_iff]
    constructor
    · intro h
      have := length_sortByApyDesc
        (selectWinnerSurvivors minTvl maxDil ourDepositUsd markets)
      rw [h] at this
      exact List.eq_nil_of_length_eq_zero this.symm
    · intro h
      rw [h]
      rfl
  · intro w hw
    rw [selectWinner, head?_sortByApyDesc] at hw
    exact ⟨firstMaxByApy_mem _ w hw, firstMaxByApy_maximal _ w hw⟩

/-- Witness for C6: on a singleton candidate list that passes both filters,
the winner returned by `selectWinner` is a survivor. -/
theorem selectWinner_filters_and_max_witness :
    (⟨⟨"m1", "jupiter", "M", 1, 10, none⟩, ⟨"s", "jupiterLend", "X"⟩⟩ :
        MatchedMarket) ∈
      selectWinnerSurvivors 0 1 0
        [⟨⟨"m1", "jupiter", "M", 1, 10, none⟩, ⟨"s", "jupiterLend", "X"⟩⟩] :=
  ((selectWinner_filters_and_max 0 1 0
      [⟨⟨"m1", "jupiter", "M", 1, 10, none⟩, ⟨"s", "jupiterLend", "X"⟩⟩]).2.2
    ⟨⟨"m1", "jupiter", "M", 1, 10, none⟩, ⟨"s", "jupiterLend", "X"⟩⟩
    (by norm_num [selectWinner, selectWinnerSurvivors, filterByTvl,
      checkDilution, sortByApyDesc, insertByApyDesc, List.filter])).1

/-- **C7, counterexample.** Two surviving candidates with equal `depositApy`
but different `totalDepositUsd`: `selectWinner` returns the one that comes
first in the candidate list, which has the *lower* TVL — there is no
highest-TVL (or lexicographic-id) tie-break in the code. -/
theorem selectWinner_tvl_tiebreak_cx :
    selectWinner 0 1
        [⟨⟨"m1", "jupiter", "M", 1, 10, none⟩, ⟨"s", "jupiterLend", "X"⟩⟩,
         ⟨⟨"m2", "jupiter", "M", 1, 20, none⟩, ⟨"s", "jupiterLend", "X"⟩⟩] 0 =
      some ⟨⟨"m1", "jupiter", "M", 1, 10, none⟩, ⟨"s", "jupiterLend", "X"⟩⟩ ∧
    (⟨⟨"m2", "jupiter", "M", 1, 20, none⟩, ⟨"s", "jupiterLend", "X"⟩⟩ :
        MatchedMarket) ∈
      selectWinnerSurvivors 0 1 0
        [⟨⟨"m1", "jupiter", "M", 1, 10, none⟩, ⟨"s", "jupiterLend", "X"⟩⟩,
         ⟨⟨"m2", "jupiter", "M", 1, 20, none⟩, ⟨"s", "jupiterLend", "X"⟩⟩] ∧
    (⟨⟨"m1", "jupiter", "M", 1, 10, none⟩, ⟨"s", "jupiterLend", "X"⟩⟩ :
        MatchedMarket).market.depositApy =
      (⟨⟨"m2", "jupiter", "M", 1, 20, none⟩, ⟨"s", "jupiterLend", "X"⟩⟩ :
        MatchedMarket).market.depositApy ∧
    (⟨⟨"m1", "jupiter", "M", 1, 10, none⟩, ⟨"s", "jupiterLend", "X"⟩⟩ :
        MatchedMarket).market.totalDepositUsd <
      (⟨⟨"m2", "jupiter", "M", 1, 20, none⟩, ⟨"s", "jupiterLend", "X"⟩⟩ :
        MatchedMarket).market.totalDepositUsd := by
  refine ⟨?_, ?_, by norm_num, by norm_num⟩
  · norm_num [selectWinner, selectWinnerSurvivors, filterByTvl,
      checkDilution, sortByApyDesc, insertByApyDesc, List.filter]
  · norm_num [selectWinnerSurvivors, filterByTvl, checkDilution,
      List.filter]

/-- **C7, amended.** Ties in `depositApy` are broken by position in the
candidate list: the selected winner is the *earliest* surviving candidate of
maximal APY (the comparator sorts only on APY and ECMAScript's sort is
stable), so the winner is a deterministic function of the ordered candidate
list — not of the candidate set, and not of `totalDepositUsd` or strategy
id. -/
theorem selectWinner_tiebreak_by_input_order (minTvl maxDil ourDepositUsd : Rat)
    (markets : List MatchedMarket) :
    selectWinner minTvl maxDil markets ourDepositUsd =
      firstMaxByApy (selectWinnerSurvivors minTvl maxDil ourDepositUsd markets) ∧
    ∀ w : MatchedMarket,
      selectWinner minTvl maxDil markets ourDepositUsd = some w →
      ∃ k : Nat,
        (selectWinnerSurvivors minTvl maxDil ourDepositUsd markets)[k]? =
          some w ∧
        ∀ (j : Nat) (c : MatchedMarket), j < k →
          (selectWinnerSurvivors minTvl maxDil ourDepositUsd markets)[j]? =
            some c →
          c.market.depositApy < w.market.depositApy := by
  refine ⟨?_, ?_⟩
  · rw [selectWinner, head?_sortByApyDesc]
  · intro w hw
    rw [selectWinner, head?_sortByApyDesc] at hw
    exact firstMaxByApy_earliest _ w hw

/-- Witness for the amended C7: on the two-candidate tie, the winner sits at
index 0 of the survivor list. -/
theorem selectWinner_tiebreak_by_input_order_witness :
    ∃ k : Nat,
      (selectWinnerSurvivors 0 1 0
        [⟨⟨"m1", "jupiter", "M", 1, 10, none⟩, ⟨"s", "jupiterLend", "X"⟩⟩,
         ⟨⟨"m2", "jupiter", "M", 1, 20, none⟩, ⟨"s", "jupiterLend", "X"⟩⟩])[k]? =
        some ⟨⟨"m1", "jupiter", "M", 1, 10, none⟩, ⟨"s", "jupiterLend", "X"⟩⟩ ∧
      ∀ (j : Nat) (c : MatchedMarket), j < k →
        (selectWinnerSurvivors 0 1 0
          [⟨⟨"m1", "jupiter", "M", 1, 10, none⟩, ⟨"s", "jupiterLend", "X"⟩⟩,
           ⟨⟨"m2", "jupiter", "M", 1, 20, none⟩, ⟨"s", "jupiterLend", "X"⟩⟩])[j]? =
          some c →
        c.market.depositApy <
          (⟨⟨"m1", "jupiter", "M", 1, 10, none⟩, ⟨"s", "jupiterLend", "X"⟩⟩ :
            MatchedMarket).market.depositApy :=
  (selectWinner_tiebreak_by_input_order 0 1 0
      [⟨⟨"m1", "jupiter", "M", 1, 10, none⟩, ⟨"s", "jupiterLend", "X"⟩⟩,
       ⟨⟨"m2", "jupiter", "M", 1, 20, none⟩, ⟨"s", "jupiterLend", "X"⟩⟩]).2
    ⟨⟨"m1", "jupiter", "M", 1, 10, none⟩, ⟨"s", "jupiterLend", "X"⟩⟩
    (by norm_num [selectWinner, selectWinnerSurvivors, filterByTvl,
      checkDilution, sortByApyDesc, insertByApyDesc, List.filter])

theorem matchMarket_market_eq (registry : List StrategyConfig)
    (m : DialMarket) (w : MatchedMarket)
    (h : matchMarket registry m = some w) : w.market = m := by
  have hjup : ∀ hw : jupiterMatch registry m = some w, w.market = m := by
    intro hw
    unfold jupiterMatch at hw
    split at hw
    · rw [Option.map_eq_some'] at hw
      obtain ⟨s, -, rfl⟩ := hw
      rfl
    · cases hw
  unfold matchMarket at h
  split at h
  · split at h
    · cases h
      rfl
    · exact hjup h
  · exact hjup h

theorem selectWinner_mem_input (minTvl maxDil ourDepositUsd : Rat)
    (markets : List MatchedMarket) (w : MatchedMarket)
    (h : selectWinner minTvl maxDil markets ourDepositUsd = some w) :
    w ∈ markets := by
  rw [selectWinner, head?_sortByApyDesc] at h
  have hmem := firstMaxByApy_mem _ w h
  simp only [selectWinnerSurvivors, filterByTvl, List.mem_filter] at hmem
  exact hmem.1.1

/-- **C10.** A successful `fetchYieldMarkets` call returns only markets whose
`token.address` equals the requested asset mint, and any winner selected from
candidates matched out of that list is denominated in the same mint. -/
theorem fetchYieldMarkets_asset_scoped (assetMint : String)
    (responseMarkets : List DialMarket) :
    (∀ m ∈ fetchYieldMarkets assetMint responseMarkets,
      m.tokenAddress = assetMint) ∧
    (∀ (registry : List StrategyConfig) (minTvl maxDil ourDepositUsd : Rat)
        (w : MatchedMarket),
      selectWinner minTvl maxDil
          (matchMarketsToStrategies registry
            (fetchYieldMarkets assetMint responseMarkets)) ourDepositUsd =
        some w →
      w.market.tokenAddress = assetMint) := by
  have hfetch : ∀ m ∈ fetchYieldMarkets assetMint responseMarkets,
      m.tokenAddress = assetMint := by
    intro m hm
    rw [fetchYieldMarkets, List.mem_filter] at hm
    simpa using hm.2
  refine ⟨hfetch, ?_⟩
  intro registry minTvl maxDil ourDepositUsd w hw
  have hmem := selectWinner_mem_input minTvl maxDil ourDepositUsd _ w hw
  rw [matchMarketsToStrategies, List.mem_filterMap] at hmem
  obtain ⟨m, hm, hmatch⟩ := hmem
  rw [matchMarket_market_eq registry m w hmatch]
  exact hfetch m hm

/-- Witness for C10: a concrete response and registry with a winner, whose
market is denominated in the requested mint. -/
theorem fetchYieldMarkets_asset_scoped_witness :
    (⟨⟨"m1", "jupiter", "A", 1, 10, none⟩, ⟨"s", "jupiterLend", "X"⟩⟩ :
        MatchedMarket).market.tokenAddress = "A" :=
  (fetchYieldMarkets_asset_scoped "A"
      [⟨"m1", "jupiter", "A", 1, 10, none⟩]).2
    [⟨"s", "jupiterLend", "X"⟩] 0 1 0
    ⟨⟨"m1", "jupiter", "A", 1, 10, none⟩, ⟨"s", "jupiterLend", "X"⟩⟩
    (by norm_num [selectWinner, selectWinnerSurvivors, filterByTvl,
      checkDilution, sortByApyDesc, insertByApyDesc, List.filter,
      matchMarketsToStrategies, matchMarket, jupiterMatch, fetchYieldMarkets,
      List.filterMap, List.find?])

/-! ### Allocation optimizer (lib/simulate/optimizer.ts)

The optimizer source file is not part of the repository snapshot — only the
site importing it (`createYieldBasedAllocation`, `StrategyInput` in
lib/simulate/index.ts) is.  The definitions below are modelled from the
specification (§4.1). -/

/-- `StrategyInput` as built by `getCurrentAndTargetAllocation`: current
position value plus the per-cycle withdrawable-liquidity ceiling (BN values,
non-negative). -/
structure StrategyInput where
  strategyId : String
  strategyType : String
  positionValue : Nat
  availableWithdrawableLiquidity : Nat
  deriving Repr, DecidableEq

/-- Modelled from the spec: the locked/illiquid amount of a strategy — the
part of the current position the strategy cannot release this cycle, i.e.
current value minus the withdrawable ceiling, clamped at zero (truncated
`Nat` subtraction; relevant only "when below current balance", §4.1). -/
def lockedOf (s : StrategyInput) : Nat :=
  s.positionValue - s.availableWithdrawableLiquidity

/-- Total locked amount of a strategy list. -/
def sumLocked (l : List StrategyInput) : Nat := (l.map lockedOf).sum

/-- Modelled from the spec (§4.1, equal-weight policy): one round computes
`share = funds / |active|`; strategies whose locked amount exceeds the share
are pinned at their locked amount and removed, and the loop recurses on the
remaining pool; when nobody exceeds the share, each active strategy receives
the share and the integer-division remainder goes to the first active
strategy (a deterministic choice, §4.1).  The second component is the
leftover assigned to the idle entry: zero unless every strategy ends up
pinned (§3).  `fuel` bounds the ≤ N iterations; callers pass `N + 1` so the
fuel never runs out. -/
def ewGo : Nat → Nat → List StrategyInput → List (StrategyInput × Nat) × Nat
  | _, funds, [] => ([], funds)
  | 0, funds, _ :: _ => ([], funds)
  | fuel + 1, funds, a :: rest =>
    let share := funds / (a :: rest).length
    let pinnedNow := (a :: rest).filter (fun s => share < lockedOf s)
    if pinnedNow.length = 0 then
      ((a, share + funds % (a :: rest).length) ::
        rest.map (fun s => (s, share)), 0)
    else
      let next := ewGo fuel (funds - sumLocked pinnedNow)
        ((a :: rest).filter (fun s => lockedOf s ≤ share))
      (pinnedNow.map (fun s => (s, lockedOf s)) ++ next.1, next.2)

/-- Modelled from the spec: the equal-weight allocation
(`createEqualWeightAllocation` per the repository README): run the pinning
loop on the full pool and append the synthetic idle entry. -/
def createEqualWeightAllocation (total : Nat)
    (strategies : List StrategyInput) : List Allocation :=
  let result := ewGo (strategies.length + 1) total strategies
  result.1.map (fun p =>
    { strategyId := p.1.strategyId
      strategyType := p.1.strategyType
      positionValue := (p.2 : Int) })
  ++ [{ strategyId := "idle", strategyType := "idle",
        positionValue := (result.2 : Int) }]

/-- Modelled from the spec (§4.1, yield-optimized policy): the winner targets
100% of total funds, capped per non-winner strategy by its withdrawable
ceiling — a non-winner keeps its locked amount and the winner's target is
reduced by the total shortfall; idle targets zero. -/
def winnerTakeAllAllocation (total : Nat) (strategies : List StrategyInput)
    (winnerId : String) : List Allocation :=
  let shortfall :=
    sumLocked (strategies.filter (fun s => !(s.strategyId == winnerId)))
  strategies.map (fun s =>
    if s.strategyId == winnerId then
      { strategyId := s.strategyId
        strategyType := s.strategyType
        positionValue := ((total - shortfall : Nat) : Int) }
    else
      { strategyId := s.strategyId
        strategyType := s.strategyType
        positionValue := (lockedOf s : Int) })
  ++ [{ strategyId := "idle", strategyType := "idle", positionValue := 0 }]

/-- Modelled from the spec: `createYieldBasedAllocation(totalPositionValue,
strategyInputs, winnerId)` — winner-take-all (with liquidity caps) when the
resolver produced a winner among the registered strategies, the equal-weight
fallback otherwise (§4.1). -/
def createYieldBasedAllocation (total : Nat) (strategies : List StrategyInput)
    (winnerId : Option String) : List Allocation :=
  match winnerId with
  | some w =>
    if strategies.any (fun s => s.strategyId == w) then
      winnerTakeAllAllocation total strategies w
    else createEqualWeightAllocation total strategies
  | none => createEqualWeightAllocation total strategies

/-- The total value carried by an allocation vector. -/
def allocationValueSum (l : List Allocation) : Int :=
  (l.map (fun a => a.positionValue)).sum

theorem sumLocked_le_sum_position (l : List StrategyInput) :
    sumLocked l ≤ (l.map (fun s => s.positionValue)).sum :=
  List.sum_le_sum (fun s _ => Nat.sub_le s.positionValue _)

theorem sumLocked_filter_le (p : StrategyInput → Bool) (l : List StrategyInput) :
    sumLocked (l.filter p) ≤ sumLocked l :=
  List.Sublist.sum_le_sum
    (List.Sublist.map lockedOf (List.filter_sublist l))
    (fun a _ => Nat.zero_le a)

theorem sumLocked_filter_partition (share : Nat) (l : List StrategyInput) :
    sumLocked (l.filter (fun s => share < lockedOf s)) +
      sumLocked (l.filter (fun s => lockedOf s ≤ share)) = sumLocked l := by
  induction l with
  | nil => rfl
  | cons x xs ih =>
    by_cases h : share < lockedOf x
    · have h1 : decide (share < lockedOf x) = true := by
        simp only [decide_eq_true_eq]
        exact h
      have h2 : decide (lockedOf x ≤ share) = false := by
        simp only [decide_eq_false_iff_not]
        omega
      simp only [sumLocked, List.filter_cons, h1, h2, eq_self_iff_true,
        Bool.false_eq_true, if_true, if_false, List.map_cons,
        List.sum_cons] at ih ⊢
      omega
    · have h1 : decide (share < lockedOf x) = false := by
        simp only [decide_eq_false_iff_not]
        exact h
      have h2 : decide (lockedOf x ≤ share) = true := by
        simp only [decide_eq_true_eq]
        omega
      simp only [sumLocked, List.filter_cons, h1, h2, eq_self_iff_true,
        Bool.false_eq_true, if_true, if_false, List.map_cons,
        List.sum_cons] at ih ⊢
      omega

theorem sum_map_const_nat {α : Type} (l : List α) (c : Nat) :
    (l.map (fun _ => c)).sum = l.length * c := by
  induction l with
  | nil => simp
  | cons x xs ih =>
    simp only [List.map_cons, List.sum_cons, List.length_cons, ih]
    ring

theorem ewGo_conserves (fuel : Nat) (funds : Nat) (active : List StrategyInput)
    (hinv : sumLocked active ≤ funds) :
    ((ewGo fuel funds active).1.map (fun p => p.2)).sum +
      (ewGo fuel funds active).2 = funds := by
  induction fuel generalizing funds active with
  | zero => cases active <;> simp [ewGo]
  | succ fuel ih =>
    cases active with
    | nil => simp [ewGo]
    | cons a rest =>
      rw [ewGo]
      split
      · have hmap : List.map (fun p => ((p : StrategyInput × Nat)).2)
            (rest.map (fun s => (s, funds / (rest.length + 1)))) =
            rest.map (fun _ => funds / (rest.length + 1)) := by
          rw [List.map_map]
          rfl
        simp only [List.map_cons, List.sum_cons, hmap, sum_map_const_nat,
          List.length_cons, Nat.add_zero]
        have hdm := Nat.div_add_mod funds (rest.length + 1)
        calc funds / (rest.length + 1) + funds % (rest.length + 1) +
              rest.length * (funds / (rest.length + 1))
            = (rest.length + 1) * (funds / (rest.length + 1)) +
                funds % (rest.length + 1) := by ring
          _ = funds := hdm
      · simp only [List.map_append, List.sum_append, List.map_map]
        have hcomp : ((fun p => ((p : StrategyInput × Nat)).2) ∘
            (fun s => (s, lockedOf s))) = lockedOf := rfl
        rw [hcomp]
        have hpinned_eq :
            (List.map lockedOf ((a :: rest).filter
              (fun s => funds / (a :: rest).length < lockedOf s))).sum =
            sumLocked ((a :: rest).filter
              (fun s => funds / (a :: rest).length < lockedOf s)) := rfl
        rw [hpinned_eq]
        have hpart := sumLocked_filter_partition
          (funds / (a :: rest).length) (a :: rest)
        have hpin_le : sumLocked ((a :: rest).filter
            (fun s => funds / (a :: rest).length < lockedOf s)) ≤ funds :=
          le_trans (sumLocked_filter_le _ _) hinv
        have hrec := ih
          (funds - sumLocked ((a :: rest).filter
            (fun s => funds / (a :: rest).length < lockedOf s)))
          ((a :: rest).filter
            (fun s => lockedOf s ≤ funds / (a :: rest).length))
          (by omega)
        omega

theorem sum_map_natCast_int {α : Type} (l : List α) (g : α → Nat) :
    (l.map (fun x => ((g x : Nat) : Int))).sum = (((l.map g).sum : Nat) : Int) := by
  induction l with
  | nil => rfl
  | cons x xs ih =>
    simp only [List.map_cons, List.sum_cons, ih]
    push_cast
    ring

theorem createEqualWeightAllocation_conserves (total : Nat)
    (strategies : List StrategyInput)
    (hsum : (strategies.map (fun s => s.positionValue)).sum ≤ total) :
    allocationValueSum (createEqualWeightAllocation total strategies) =
      (total : Int) := by
  have hinv : sumLocked strategies ≤ total :=
    le_trans (sumLocked_le_sum_position strategies) hsum
  have hcons := ewGo_conserves (strategies.length + 1) total strategies hinv
  unfold allocationValueSum createEqualWeightAllocation
  simp only [List.map_append, List.sum_append, List.map_map, List.map_cons,
    List.map_nil, List.sum_cons, List.sum_nil]
  have hcomp : ((fun a => a.positionValue) ∘ (fun p =>
      ({ strategyId := p.1.strategyId
         strategyType := p.1.strategyType
         positionValue := ((p : StrategyInput × Nat).2 : Int) } : Allocation)))
      = fun p => (((p : StrategyInput × Nat).2 : Nat) : Int) := rfl
  rw [hcomp, sum_map_natCast_int]
  exact_mod_cast hcons

theorem unique_winner_filter_length (l : List StrategyInput) (w : String)
    (hnodup : (l.map (fun s => s.strategyId)).Nodup)
    (hany : l.any (fun s => s.strategyId == w)) :
    (l.filter (fun s => s.strategyId == w)).length = 1 := by
  induction l with
  | nil => simp at hany
  | cons x xs ih =>
    simp only [List.map_cons, List.nodup_cons] at hnodup
    by_cases h : x.strategyId = w
    · have hempty : xs.filter (fun s => s.strategyId == w) = [] := by
        rw [List.filter_eq_nil_iff]
        intro s hs hsw
        apply hnodup.1
        rw [List.mem_map]
        refine ⟨s, hs, ?_⟩
        have : s.strategyId = w := by simpa using hsw
        rw [this, h]
      simp [List.filter_cons, h, hempty]
    · have hany' : xs.any (fun s => s.strategyId == w) := by
        simpa [List.any_cons, h] using hany
      simp [List.filter_cons, h, ih hnodup.2 hany']

theorem sum_ite_winner (l : List StrategyInput) (w : String) (amount : Nat) :
    (l.map (fun s => if s.strategyId == w then amount else lockedOf s)).sum =
      amount * (l.filter (fun s => s.strategyId == w)).length +
        sumLocked (l.filter (fun s => !(s.strategyId == w))) := by
  induction l with
  | nil => rfl
  | cons x xs ih =>
    by_cases h : x.strategyId = w
    · have hb : (x.strategyId == w) = true := by simpa using h
      simp only [sumLocked, List.map_cons, List.sum_cons, List.filter_cons,
        hb, eq_self_iff_true, if_true, Bool.not_true, Bool.false_eq_true,
        if_false, List.length_cons, ih]
      ring
    · have hb : (x.strategyId == w) = false := by simpa using h
      simp only [sumLocked, List.map_cons, List.sum_cons, List.filter_cons,
        hb, Bool.false_eq_true, if_false, Bool.not_false, eq_self_iff_true,
        if_true, List.length_cons, ih]
      ring

theorem winnerTakeAllAllocation_conserves (total : Nat)
    (strategies : List StrategyInput) (w : String)
    (hsum : (strategies.map (fun s => s.positionValue)).sum ≤ total)
    (hnodup : (strategies.map (fun s => s.strategyId)).Nodup)
    (hany : strategies.any (fun s => s.strategyId == w)) :
    allocationValueSum (winnerTakeAllAllocation total strategies w) =
      (total : Int) := by
  unfold allocationValueSum winnerTakeAllAllocation
  simp only [List.map_append, List.sum_append, List.map_map, List.map_cons,
    List.map_nil, List.sum_cons, List.sum_nil]
  have hshort_le : sumLocked (strategies.filter
      (fun s => !(s.strategyId == w))) ≤ total :=
    le_trans (le_trans (sumLocked_filter_le _ _)
      (sumLocked_le_sum_position strategies)) hsum
  have hcomp : ((fun a => a.positionValue) ∘ (fun s =>
      if s.strategyId == w then
        ({ strategyId := s.strategyId
           strategyType := s.strategyType
           positionValue := ((total - sumLocked (strategies.filter
             (fun t => !(t.strategyId == w))) : Nat) : Int) } : Allocation)
      else
        ({ strategyId := s.strategyId
           strategyType := s.strategyType
           positionValue := (lockedOf s : Int) } : Allocation))) =
      fun s => (((if s.strategyId == w then
        total - sumLocked (strategies.filter (fun t => !(t.strategyId == w)))
        else lockedOf s : Nat)) : Int) := by
    funext s
    by_cases h : s.strategyId == w
    · simp [Function.comp, h]
    · simp only [Bool.not_eq_true] at h
      simp [Function.comp, h]
  rw [hcomp, sum_map_natCast_int, sum_ite_winner,
    unique_winner_filter_length strategies w hnodup hany]
  push_cast
  omega

/-- **C2.** Conservation: under either policy (equal-weight fallback or
winner-take-all) the target allocation produced by
`createYieldBasedAllocation` carries exactly the pool's total value — the sum
of all current position values (strategies plus idle) — with the
integer-division remainder deterministically assigned (to the first
unpinned strategy) and any value no strategy can absorb assigned to idle.
The hypotheses state that the strategy ids are distinct and that the
strategies' current values never exceed the pool total (the caller computes
the total as the sum over all strategies plus the idle balance). -/
theorem createYieldBasedAllocation_conserves (total : Nat)
    (strategies : List StrategyInput) (winnerId : Option String)
    (hsum : (strategies.map (fun s => s.positionValue)).sum ≤ total)
    (hnodup : (strategies.map (fun s => s.strategyId)).Nodup) :
    allocationValueSum (createYieldBasedAllocation total strategies winnerId) =
      (total : Int) := by
  cases winnerId with
  | none => exact createEqualWeightAllocation_conserves total strategies hsum
  | some w =>
    simp only [createYieldBasedAllocation]
    by_cases hany : strategies.any (fun s => s.strategyId == w)
    · rw [if_pos hany]
      exact winnerTakeAllAllocation_conserves total strategies w hsum hnodup hany
    · rw [if_neg hany]
      exact createEqualWeightAllocation_conserves total strategies hsum

/-- Witness for C2: a pool of total value 100 (80 in strategies, 20 idle)
with a winner; the target allocation sums to 100. -/
theorem createYieldBasedAllocation_conserves_witness :
    allocationValueSum (createYieldBasedAllocation 100
      [⟨"a", "kaminoVault", 50, 10⟩, ⟨"b", "jupiterLend", 30, 1000⟩]
      (some "a")) = (100 : Int) :=
  createYieldBasedAllocation_conserves 100
    [⟨"a", "kaminoVault", 50, 10⟩, ⟨"b", "jupiterLend", 30, 1000⟩]
    (some "a") (by decide) (by decide)

/-! ### Winner resolution (resolveYieldWinner, lib/simulate/index.ts) -/

/-- The label on the `rebalance_fallback_total` counter incremented when the
resolver produces no winner. -/
inductive FallbackReason where
  | noMatch
  | allFiltered
  | apiFail
  deriving Repr, DecidableEq

/-- `resolveYieldWinner`: the whole body runs inside `try/catch`, so any
failure (fetch timeout, transport error, or a later step throwing) returns
`null` with the `api_fail` counter; a successful fetch whose markets match no
registered strategy returns `null` with `no_match`; matched candidates all
removed by `selectWinner`'s filters return `null` with `all_filtered`;
otherwise the winner's strategy id is returned and no fallback counter is
incremented. The fetch outcome is passed as an `Except` value; the result
pairs the optional winner id with the optional fallback-counter label. -/
def resolveYieldWinner (registry : List StrategyConfig) (minTvl maxDil : Rat)
    (fetchResult : Except Unit (List DialMarket)) (totalUsd : Rat) :
    Option String × Option FallbackReason :=
  match fetchResult with
  | Except.error _ => (none, some FallbackReason.apiFail)
  | Except.ok markets =>
    let matched := matchMarketsToStrategies registry markets
    if matched.length = 0 then (none, some FallbackReason.noMatch)
    else
      match selectWinner minTvl maxDil matched totalUsd with
      | none => (none, some FallbackReason.allFiltered)
      | some winner => (some winner.strategy.id, none)

/-- **C8.** Winner resolution is a total function (never throws): a failed
fetch yields no winner with reason `api_fail`; a fetch whose markets match no
registered strategy yields no winner with reason `no_match`; matched
candidates all removed by the TVL/dilution filters yield no winner with
reason `all_filtered`; a surviving winner yields its strategy id with no
fallback counter. Exactly one reason counter is emitted precisely when there
is no winner, and in every no-winner case the cycle's target allocation falls
back to the equal-weight policy. -/
theorem resolveYieldWinner_reasons (registry : List StrategyConfig)
    (minTvl maxDil : Rat) (fetchResult : Except Unit (List DialMarket))
    (totalUsd : Rat) :
    (∀ e : Unit, fetchResult = Except.error e →
      resolveYieldWinner registry minTvl maxDil fetchResult totalUsd =
        (none, some FallbackReason.apiFail)) ∧
    (∀ markets : List DialMarket, fetchResult = Except.ok markets →
      matchMarketsToStrategies registry markets = [] →
      resolveYieldWinner registry minTvl maxDil fetchResult totalUsd =
        (none, some FallbackReason.noMatch)) ∧
    (∀ markets : List DialMarket, fetchResult = Except.ok markets →
      matchMarketsToStrategies registry markets ≠ [] →
      selectWinner minTvl maxDil (matchMarketsToStrategies registry markets)
          totalUsd = none →
      resolveYieldWinner registry minTvl maxDil fetchResult totalUsd =
        (none, some FallbackReason.allFiltered)) ∧
    (∀ (markets : List DialMarket) (w : MatchedMarket),
      fetchResult = Except.ok markets →
      matchMarketsToStrategies registry markets ≠ [] →
      selectWinner minTvl maxDil (matchMarketsToStrategies registry markets)
          totalUsd = some w →
      resolveYieldWinner registry minTvl maxDil fetchResult totalUsd =
        (some w.strategy.id, none)) ∧
    ((resolveYieldWinner registry minTvl maxDil fetchResult totalUsd).1 = none
      ↔ ((resolveYieldWinner registry minTvl maxDil fetchResult
            totalUsd).2).isSome) ∧
    ((resolveYieldWinner registry minTvl maxDil fetchResult totalUsd).1 = none
      → ∀ (total : Nat) (strategies : List StrategyInput),
        createYieldBasedAllocation total strategies
          (resolveYieldWinner registry minTvl maxDil fetchResult totalUsd).1 =
        createEqualWeightAllocation total strategies) := by
  refine ⟨?_, ?_, ?_, ?_, ?_, ?_⟩
  · intro e he
    subst he
    rfl
  · intro markets hok hempty
    subst hok
    simp [resolveYieldWinner, hempty]
  · intro markets hok hne hwin
    subst hok
    have hl : ¬ (matchMarketsToStrategies registry markets).length = 0 := by
      simpa [List.length_eq_zero] using hne
    simp [resolveYieldWinner, hl, hwin]
  · intro markets w hok hne hwin
    subst hok
    have hl : ¬ (matchMarketsToStrategies registry markets).length = 0 := by
      simpa [List.length_eq_zero] using hne
    simp [resolveYieldWinner, hl, hwin]
  · cases fetchResult with
    | error e => simp [resolveYieldWinner]
    | ok markets =>
      by_cases hl : (matchMarketsToStrategies registry markets).length = 0
      · simp [resolveYieldWinner, hl]
      · cases hw : selectWinner minTvl maxDil
            (matchMarketsToStrategies registry markets) totalUsd with
        | none => simp [resolveYieldWinner, hl, hw]
        | some w => simp [resolveYieldWinner, hl, hw]
  · intro h total strategies
    rw [h]
    rfl

/-- Witness for C8: a failed fetch resolves to no winner with the `api_fail`
reason. -/
theorem resolveYieldWinner_reasons_witness :
    resolveYieldWinner [] 0 0 (Except.error ()) 0 =
      (none, some FallbackReason.apiFail) :=
  (resolveYieldWinner_reasons [] 0 0 (Except.error ()) 0).1 () rfl

/-! ### Deposit-event gating (startAccountSubscription,
src/rebalance_loop.ts) -/

/-- The mutable state the account-change callback reads: the previously
observed ATA balance (`null` before the first event) and the time of the last
rebalance execution. Times are in milliseconds; balances are BN token
amounts. -/
structure SubscriptionState where
  previousBalance : Option Int
  lastExecutionTime : Int
  deriving Repr, DecidableEq

/-- `isOnCooldown`: elapsed time since the last execution is below the
configured loop interval. -/
def isOnCooldown (intervalMs now : Int) (st : SubscriptionState) : Bool :=
  now - st.lastExecutionTime < intervalMs

/-- The gating logic of the `onAccountChange` callback: compute
`balanceIncreased` against the previous observation, unconditionally record
the new balance, then bail out unless the balance increased, the loop is off
cooldown, and the balance exceeds `depositStrategyMinAmount`; only then is a
rebalance executed. Returns (whether a rebalance is triggered, the updated
`previousBalance`). -/
def onDepositEvent (intervalMs minAmount now : Int)
    (st : SubscriptionState) (currentBalance : Int) : Bool × Option Int :=
  let balanceIncreased :=
    match st.previousBalance with
    | some p => decide (p < currentBalance)
    | none => false
  let newPrev := some currentBalance
  if !balanceIncreased then (false, newPrev)
  else if isOnCooldown intervalMs now st then (false, newPrev)
  else if currentBalance ≤ minAmount then (false, newPrev)
  else (true, newPrev)

/-- **C9.** A deposit event triggers a rebalance exactly when the observed
balance increased relative to the previous observation, the loop is not on
cooldown (elapsed time since the last execution reaches the interval), and
the balance exceeds the configured minimum; in particular no event during
cooldown, and no event with balance at or below the minimum, triggers an
execution. The previous-balance record is always updated to the observed
balance. -/
theorem onDepositEvent_gating (intervalMs minAmount now : Int)
    (st : SubscriptionState) (currentBalance : Int) :
    ((onDepositEvent intervalMs minAmount now st currentBalance).1 = true ↔
      ((∃ p : Int, st.previousBalance = some p ∧ p < currentBalance) ∧
        intervalMs ≤ now - st.lastExecutionTime ∧
        minAmount < currentBalance)) ∧
    (onDepositEvent intervalMs minAmount now st currentBalance).2 =
      some currentBalance := by
  cases hp : st.previousBalance with
  | none =>
    simp [onDepositEvent, hp]
  | some p =>
    by_cases hinc : p < currentBalance
    · by_cases hcd : now - st.lastExecutionTime < intervalMs
      · have hval : onDepositEvent intervalMs minAmount now st currentBalance =
            (false, some currentBalance) := by
          simp [onDepositEvent, isOnCooldown, hp, hinc, hcd]
        rw [hval]
        refine ⟨⟨(fun hfalse => nomatch hfalse), ?_⟩, rfl⟩
        rintro ⟨-, hcd2, -⟩
        exfalso
        omega
      · by_cases hmin : currentBalance ≤ minAmount
        · have hval : onDepositEvent intervalMs minAmount now st
              currentBalance = (false, some currentBalance) := by
            simp [onDepositEvent, isOnCooldown, hp, hinc, hcd, hmin]
          rw [hval]
          refine ⟨⟨(fun hfalse => nomatch hfalse), ?_⟩, rfl⟩
          rintro ⟨-, -, hmin2⟩
          exfalso
          omega
        · have hval : onDepositEvent intervalMs minAmount now st
              currentBalance = (true, some currentBalance) := by
            simp [onDepositEvent, isOnCooldown, hp, hinc, hcd, hmin]
          rw [hval]
          exact ⟨⟨fun _ => ⟨⟨p, rfl, hinc⟩, by omega, by omega⟩, fun _ => rfl⟩,
            rfl⟩
    · have hval : onDepositEvent intervalMs minAmount now st currentBalance =
          (false, some currentBalance) := by
        simp [onDepositEvent, hp, hinc]
      rw [hval]
      refine ⟨⟨(fun hfalse => nomatch hfalse), ?_⟩, rfl⟩
      rintro ⟨⟨q, hq, hq2⟩, -, -⟩
      obtain rfl : p = q := by simpa using hq
      exfalso
      omega

/-- Witness for C9: a balance increase off cooldown and above the minimum
triggers, via the gating equivalence. -/
theorem onDepositEvent_gating_witness :
    (onDepositEvent 1000 5 2000 ⟨some 10, 0⟩ 50).1 = true :=
  ((onDepositEvent_gating 1000 5 2000 ⟨some 10, 0⟩ 50).1).mpr
    ⟨⟨10, rfl, by decide⟩, by decide, by decide⟩

end RebalanceBot
